import Mathlib

/-
Verification of `src/typeshed_examples/transform_old_to_new.py`.

The program rewrites one-line type-annotation fragments of the form
`Callable[[P1, P2], R]` into an arrow form `(P1, P2) -> R`.  It parses each
fragment with libcst, runs a `CSTTransformer` whose only handler is
`leave_Subscript`, serializes the transformed tree back to text, and then
applies two plain string substitutions:
  raw.replace("'**', ", "**").replace("+", "->").

This file gives a shallow embedding of the parts of libcst that the program
exercises, plus the program's own transformer and string pass, and proves or
refutes the specification's claims about them.

Embedding notes (all traced against the libcst sources, `_nodes/expression.py`
and `_visitors.py`):

* `CST` covers exactly the node kinds these fragments produce or that the
  transformer constructs: `Name`, `SimpleString`, `Ellipsis`, `Tuple`, `List`,
  `Subscript` (with `Index` slices) and `BinaryOperation` with an `Add`
  operator.  `lpar`/`rpar` paren sequences are modelled as a single boolean on
  the nodes the program parenthesizes (`Tuple`, `Ellipsis`); the remaining
  nodes carry no parens in these fragments.  Whitespace fields that the
  program leaves at their parsed or default values and that do not vary
  (e.g. `whitespace_after_value` of `Subscript`, which is `""`) are rendered
  as those constants.

* An element (`Element` of a `Tuple`/`List`, or `SubscriptElement` with an
  `Index` slice) is a value plus an optional explicit comma; `none` models
  `MaybeSentinel.DEFAULT`, and `some s` models an explicit `Comma` whose
  rendered text (whitespace_before ++ "," ++ whitespace_after) is `s`.

* Serialization (`code`) follows libcst's `_codegen_impl` methods: a tuple of
  exactly one element renders a default trailing comma with no space (so a
  singleton tuple is `(x,)`); otherwise a default comma renders as `", "`
  between elements and as nothing after the last one.  Subscript slices
  separate with a default `", "`.  A constructed `Add()` renders as
  " " ++ "+" ++ " ".

* Fragments are represented by their parse trees.  libcst parsing is lossless
  (`parse_module(text).code == text`), so the tree standing for a given
  fragment text is pinned down in each concrete theorem by a conjunct stating
  `code tree = text`.  Trailing newlines are immaterial and dropped.

* The traversal (`transform`) is libcst's post-order visit: children are
  rebuilt first (value before slice, elements left to right), then the leave
  handler runs on subscripts.  Exceptions become `Except.error`:
  `concatenateNotImplemented` for the NotImplementedError raised on
  `Concatenate`, `sliceIndexError` for the IndexError raised by
  `updated_node.slice[1]` when the subscript has fewer than two slice
  elements, and `unrecognizedParameterShape` for the RuntimeError("oops")
  raised on an unmatched parameter shape.  As in the source's
  `leave_Subscript`, a subscript that matches neither `Concatenate` nor
  `Callable` returns `original_node` (not `updated_node`).
-/

namespace TransformOldToNew

mutual

/-- The libcst expression nodes occurring in these fragments. -/
inductive CST where
  | name (value : String)
  | simpleString (value : String)
  | ellipsis (parenthesized : Bool)
  | tuple (parenthesized : Bool) (elements : Elems)
  | list (elements : Elems)
  | subscript (value : CST) (slice : Elems)
  | binaryOperationAdd (wsBeforeOp wsAfterOp : String) (left right : CST)
  deriving DecidableEq, Repr

/-- A sequence of elements (tuple/list elements, or subscript slice elements
with `Index` slices).  Each carries its value and an optional explicit comma,
given as the comma's rendered text; `none` is `MaybeSentinel.DEFAULT`. -/
inductive Elems where
  | nil
  | cons (value : CST) (comma : Option String) (rest : Elems)
  deriving DecidableEq, Repr

end

/-- Number of elements in an element sequence. -/
def elemsLength : Elems → Nat
  | .nil => 0
  | .cons _ _ rest => elemsLength rest + 1

mutual

/-- Serialization of a node to source text, following libcst codegen. -/
def code : CST → String
  | .name v => v
  | .simpleString v => v
  | .ellipsis paren => if paren then "(...)" else "..."
  | .tuple paren es =>
    (if paren then "(" else "") ++ tupleInner es ++ (if paren then ")" else "")
  | .list es => "[" ++ elemsCode es ++ "]"
  | .subscript v sl => code v ++ "[" ++ elemsCode sl ++ "]"
  | .binaryOperationAdd w1 w2 l r => code l ++ w1 ++ "+" ++ w2 ++ code r

/-- Tuple element rendering: a single element gets a default trailing comma
with no whitespace (libcst `Tuple._codegen_impl`); otherwise the general
element rendering applies (default `", "` between elements, nothing after
the last). -/
def tupleInner : Elems → String
  | .nil => ""
  | .cons c cm .nil => code c ++ cm.getD ","
  | .cons c cm (.cons c2 cm2 rest) => code c ++ cm.getD ", " ++ elemsCode (.cons c2 cm2 rest)

/-- General element rendering: default comma is `", "` between elements and
nothing after the last; an explicit comma renders its own text. -/
def elemsCode : Elems → String
  | .nil => ""
  | .cons c cm .nil => code c ++ cm.getD ""
  | .cons c cm (.cons c2 cm2 rest) => code c ++ cm.getD ", " ++ elemsCode (.cons c2 cm2 rest)

end

/-- The transformer's error outcomes (Python exceptions). -/
inductive Err where
  | concatenateNotImplemented
  | sliceIndexError
  | unrecognizedParameterShape
  deriving DecidableEq, Repr

/-- Embeds `callable_to_new_syntax_as_string` (the function name in the Python
source): dispatch on the parameter shape exactly as the source's matcher
chain Name / Tuple / Ellipsis / List does, and build the
`BinaryOperation(left=transformed_parameters, right=return_type,
operator=Add())` encoding node. -/
def callable_to_new_arrow_as_string (parameters return_type : CST) : Except Err CST :=
  match parameters with
  | .name v =>
    .ok (.binaryOperationAdd " " " "
      (.tuple true (.cons (.simpleString "'**'") none (.cons (.name v) none .nil)))
      return_type)
  | .tuple paren es => .ok (.binaryOperationAdd " " " " (.tuple paren es) return_type)
  | .ellipsis _ => .ok (.binaryOperationAdd " " " " (.ellipsis true) return_type)
  | .list es => .ok (.binaryOperationAdd " " " " (.tuple true es) return_type)
  | _ => .error .unrecognizedParameterShape

/-- Embeds the transformer's `leave_Subscript`.  `Concatenate` raises
NotImplementedError; `Callable` reads `slice[0]` and `slice[1]` (IndexError
when fewer than two slice elements; extra elements are ignored); any other
subscript returns `original_node`, discarding the updated children. -/
def leave_Subscript (original updated : CST) : Except Err CST :=
  match updated with
  | .subscript v sl =>
    if v = .name "Concatenate" then .error .concatenateNotImplemented
    else if v = .name "Callable" then
      match sl with
      | .cons p _ (.cons r _ _) => callable_to_new_arrow_as_string p r
      | _ => .error .sliceIndexError
    else .ok original
  | _ => .ok original

mutual

/-- The post-order traversal of `original_tree.visit(transformer)`: children
are rebuilt first, then `leave_Subscript` runs on each subscript with the
original node and the child-updated node.  Exceptions propagate. -/
def transform : CST → Except Err CST
  | .name v => .ok (.name v)
  | .simpleString v => .ok (.simpleString v)
  | .ellipsis paren => .ok (.ellipsis paren)
  | .tuple paren es =>
    match transformElems es with
    | .error e => .error e
    | .ok esU => .ok (.tuple paren esU)
  | .list es =>
    match transformElems es with
    | .error e => .error e
    | .ok esU => .ok (.list esU)
  | .binaryOperationAdd w1 w2 l r =>
    match transform l with
    | .error e => .error e
    | .ok lU =>
      match transform r with
      | .error e => .error e
      | .ok rU => .ok (.binaryOperationAdd w1 w2 lU rU)
  | .subscript v sl =>
    match transform v with
    | .error e => .error e
    | .ok vU =>
      match transformElems sl with
      | .error e => .error e
      | .ok slU => leave_Subscript (.subscript v sl) (.subscript vU slU)

/-- Child traversal of an element sequence, left to right. -/
def transformElems : Elems → Except Err Elems
  | .nil => .ok .nil
  | .cons c cm rest =>
    match transform c with
    | .error e => .error e
    | .ok cU =>
      match transformElems rest with
      | .error e => .error e
      | .ok restU => .ok (.cons cU cm restU)

end

/-- Does `pat` begin the list `l`? -/
def leadsWith : List Char → List Char → Bool
  | [], _ => true
  | _ :: _, [] => false
  | p :: ps, c :: cs => p == c && leadsWith ps cs

/-- Python `str.replace`: replace non-overlapping occurrences of `pat` left to
right.  Fuel-structured so that it computes by reduction; callers pass the
list length as fuel, which is always sufficient.  Only non-empty patterns are
used by the program; an empty pattern is treated as matching nowhere. -/
def strReplaceAux (pat rep : List Char) : Nat → List Char → List Char
  | _, [] => []
  | 0, l => l
  | fuel + 1, c :: rest =>
    if pat.isEmpty then c :: strReplaceAux pat rep fuel rest
    else if leadsWith pat (c :: rest) then
      rep ++ strReplaceAux pat rep fuel (List.drop (pat.length - 1) rest)
    else c :: strReplaceAux pat rep fuel rest

/-- Replace every non-overlapping occurrence of `pat` in `l` by `rep`. -/
def strReplace (pat rep l : List Char) : List Char :=
  strReplaceAux pat rep l.length l

/-- Python `s.replace(pat, rep)` on strings. -/
def pyReplace (s pat rep : String) : String :=
  ⟨strReplace pat.data rep.data s.data⟩

/-- Embeds the final text substitution of the loop body:
`raw.replace("'**', ", "**").replace("+", "->")`. -/
def transformed_line (raw : String) : String :=
  pyReplace (pyReplace raw "'**', " "**") "+" "->"

/-- One fragment through the per-line pipeline: transform the parsed tree,
serialize, and apply the final text substitution.  (Parsing is represented by
working on the fragment's parse tree; serialization of the whole transformed
module is `code` of the transformed tree.) -/
def pipelineFragment (t : CST) : Except Err String :=
  match transform t with
  | .ok u => .ok (transformed_line (code u))
  | .error e => .error e

/-- Embeds the accumulation loop over `lines`: a fragment that raises
contributes no output line and processing continues with the next fragment. -/
def transformedLines : List CST → List String
  | [] => []
  | t :: rest =>
    match pipelineFragment t with
    | .ok s => s :: transformedLines rest
    | .error _ => transformedLines rest

/-- The process-wide mutable state of the script: the `functools.lru_cache`
slot of `empty_module()` (caching the module parsed from `""`, represented by
its code) and the `_current_line` global. -/
structure RunState where
  emptyModuleCache : Option String
  currentLine : Option String

/-- Code of `libcst.parse_module("")`. -/
def empty_module_value : String := ""

/-- Embeds the memoized `empty_module()`: return the cached module if present,
else construct and cache it. -/
def empty_module (st : RunState) : String × RunState :=
  match st.emptyModuleCache with
  | some m => (m, st)
  | none => (empty_module_value, { st with emptyModuleCache := some empty_module_value })

/-- Embeds `code_for_node`: render a node via the memoized empty module's
serialization context.  The empty-context rendering of a node is its plain
`code`; the cache is only read or filled. -/
def code_for_node (st : RunState) (node : CST) : String × RunState :=
  let stNext := (empty_module st).2
  (code node, stNext)

/-- The accumulation loop with the process-wide state made explicit: each
iteration assigns `_current_line` before processing its fragment. -/
def transformedLinesFrom (st : RunState) : List CST → List String × RunState
  | [] => ([], st)
  | t :: rest =>
    let st1 := { st with currentLine := some (code t) }
    match pipelineFragment t with
    | .ok s =>
      let res := transformedLinesFrom st1 rest
      (s :: res.1, res.2)
    | .error _ => transformedLinesFrom st1 rest

mutual

/-- Does the tree contain a subscript whose value is the identifier
`Concatenate`? -/
def containsConcatenate : CST → Bool
  | .name _ => false
  | .simpleString _ => false
  | .ellipsis _ => false
  | .tuple _ es => containsConcatenateElems es
  | .list es => containsConcatenateElems es
  | .binaryOperationAdd _ _ l r => containsConcatenate l || containsConcatenate r
  | .subscript v sl =>
    (v == .name "Concatenate")
      || containsConcatenate v || containsConcatenateElems sl

def containsConcatenateElems : Elems → Bool
  | .nil => false
  | .cons c _ rest => containsConcatenate c || containsConcatenateElems rest

end

mutual

/-- Does the tree contain a subscript whose value is the identifier
`Callable`?  Such subscripts are the only places the traversal can raise an
error other than the Concatenate one (their slice indexing and parameter
shape dispatch). -/
def containsCallable : CST → Bool
  | .name _ => false
  | .simpleString _ => false
  | .ellipsis _ => false
  | .tuple _ es => containsCallableElems es
  | .list es => containsCallableElems es
  | .binaryOperationAdd _ _ l r => containsCallable l || containsCallable r
  | .subscript v sl =>
    (v == .name "Callable") || containsCallable v || containsCallableElems sl

def containsCallableElems : Elems → Bool
  | .nil => false
  | .cons c _ rest => containsCallable c || containsCallableElems rest

end

mutual

/-- Does the tree contain a subscript whose value is the identifier `Callable`
or `Concatenate` (the shapes the rewriter matches)? -/
def hasTargetSubscript : CST → Bool
  | .name _ => false
  | .simpleString _ => false
  | .ellipsis _ => false
  | .tuple _ es => hasTargetSubscriptElems es
  | .list es => hasTargetSubscriptElems es
  | .binaryOperationAdd _ _ l r => hasTargetSubscript l || hasTargetSubscript r
  | .subscript v sl =>
    (v == .name "Callable") || (v == .name "Concatenate")
      || hasTargetSubscript v || hasTargetSubscriptElems sl

def hasTargetSubscriptElems : Elems → Bool
  | .nil => false
  | .cons c _ rest => hasTargetSubscript c || hasTargetSubscriptElems rest

end

/-- Does `l` contain `pat` as a contiguous subsequence? -/
def hasSub : List Char → List Char → Bool
  | [], pat => leadsWith pat []
  | c :: rest, pat => leadsWith pat (c :: rest) || hasSub rest pat

/-- The target arrow syntax for a recognized Callable match, written from the
spec's words: the encoded parameter text, the literal arrow `->`, then the
return type's text; the Name shape gets the bare `**` prefix. -/
def intendedArrowText (parameters return_type : CST) : String :=
  match parameters with
  | .name v => "(**" ++ v ++ ") -> " ++ code return_type
  | .tuple paren es => code (.tuple paren es) ++ " -> " ++ code return_type
  | .ellipsis _ => "(...) -> " ++ code return_type
  | .list es => code (.tuple true es) ++ " -> " ++ code return_type
  | _ => ""

/-- The serialized parameter text of a recognized shape, as it appears to the
left of the placeholder operator after encoding (for the Name shape, just the
identifier, which the marker tuple wraps). -/
def shapeParamsText : CST → String
  | .name v => v
  | .tuple paren es => code (.tuple paren es)
  | .ellipsis _ => "(...)"
  | .list es => code (.tuple true es)
  | _ => ""

/-- A string free of the two characters the final substitution pass reacts to:
the quote of the string marker and the placeholder plus. -/
def cleanChars (s : String) : Prop := '\'' ∉ s.data ∧ '+' ∉ s.data

instance (s : String) : Decidable (cleanChars s) := by
  unfold cleanChars; infer_instance

/-- Parse tree of the fragment `Callable[[str], bool]`. -/
def innerCallableFragment : CST :=
  .subscript (.name "Callable")
    (.cons (.list (.cons (.name "str") none .nil)) (some ", ")
      (.cons (.name "bool") none .nil))

/-- Parse tree of the fragment `Callable[[int], Callable[[str], bool]]`. -/
def nestedCallableFragment : CST :=
  .subscript (.name "Callable")
    (.cons (.list (.cons (.name "int") none .nil)) (some ", ")
      (.cons innerCallableFragment none .nil))

/-- Parse tree of the fragment `Optional[Callable[[int], str]]`. -/
def optionalCallableFragment : CST :=
  .subscript (.name "Optional")
    (.cons (.subscript (.name "Callable")
        (.cons (.list (.cons (.name "int") none .nil)) (some ", ")
          (.cons (.name "str") none .nil)))
      none .nil)

/-- Parse tree of the fragment `x + y`. -/
def plusFragment : CST := .binaryOperationAdd " " " " (.name "x") (.name "y")

/-- Parse tree of the fragment `Callable[P, int, str]` (three slice elements). -/
def threeSliceCallableFragment : CST :=
  .subscript (.name "Callable")
    (.cons (.name "P") (some ", ")
      (.cons (.name "int") (some ", ")
        (.cons (.name "str") none .nil)))

/-- Parse tree of the fragment `X[Callable[int], Concatenate[int, P]]`: the
malformed Callable sits in an earlier slice element than the Concatenate. -/
def mixedConcatenateFragment : CST :=
  .subscript (.name "X")
    (.cons (.subscript (.name "Callable") (.cons (.name "int") none .nil)) (some ", ")
      (.cons (.subscript (.name "Concatenate")
          (.cons (.name "int") (some ", ") (.cons (.name "P") none .nil)))
        none .nil))

/-- Parse tree of the fragment `Callable[P, int]`. -/
def paramSpecFragment : CST :=
  .subscript (.name "Callable")
    (.cons (.name "P") (some ", ") (.cons (.name "int") none .nil))

/-- Parse tree of the fragment `Concatenate[int, P]`. -/
def concatenateFragment : CST :=
  .subscript (.name "Concatenate")
    (.cons (.name "int") (some ", ") (.cons (.name "P") none .nil))

/-! Helper lemmas about the character-level replacement function. -/

theorem leadsWith_self_append (pat tail : List Char) :
    leadsWith pat (pat ++ tail) = true := by
  induction pat with
  | nil => rfl
  | cons p ps ih => simp [leadsWith, ih]

theorem strReplaceAux_fuel (pat rep : List Char) (f1 f2 : Nat) (l : List Char)
    (h1 : l.length ≤ f1) (h2 : l.length ≤ f2) :
    strReplaceAux pat rep f1 l = strReplaceAux pat rep f2 l := by
  induction f1 generalizing f2 l with
  | zero =>
    have : l = [] := List.length_eq_zero.mp (Nat.le_zero.mp h1)
    subst this
    cases f2 <;> rfl
  | succ f ih =>
    cases l with
    | nil => cases f2 <;> rfl
    | cons c rest =>
      cases f2 with
      | zero => simp at h2
      | succ g =>
        have hf : rest.length ≤ f := by
          simp only [List.length_cons] at h1; omega
        have hg : rest.length ≤ g := by
          simp only [List.length_cons] at h2; omega
        by_cases hpe : pat.isEmpty
        · simp only [strReplaceAux, if_pos hpe]
          exact congrArg _ (ih g rest hf hg)
        · by_cases hlw : leadsWith pat (c :: rest)
          · simp only [strReplaceAux, if_neg hpe, if_pos hlw]
            have hd : (List.drop (pat.length - 1) rest).length ≤ rest.length := by
              simp
            exact congrArg _ (ih g _ (le_trans hd hf) (le_trans hd hg))
          · simp only [strReplaceAux, if_neg hpe, if_neg hlw]
            exact congrArg _ (ih g rest hf hg)

theorem strReplace_cons_of_not_leadsWith (pat rep : List Char) (c : Char)
    (rest : List Char) (h : leadsWith pat (c :: rest) = false) :
    strReplace pat rep (c :: rest) = c :: strReplace pat rep rest := by
  by_cases hpe : pat.isEmpty
  · simp [strReplace, strReplaceAux, hpe]
  · simp [strReplace, strReplaceAux, hpe, h]

theorem strReplace_head_match (p : Char) (ps rep tail : List Char) :
    strReplace (p :: ps) rep ((p :: ps) ++ tail) = rep ++ strReplace (p :: ps) rep tail := by
  have hlw : leadsWith (p :: ps) (p :: (ps ++ tail)) = true := by
    simp [leadsWith, leadsWith_self_append]
  have hpe : (p :: ps).isEmpty = false := rfl
  have hdrop : List.drop ((p :: ps).length - 1) (ps ++ tail) = tail := by
    simp
  have step :
      strReplaceAux (p :: ps) rep ((ps ++ tail).length + 1) (p :: (ps ++ tail))
        = rep ++ strReplaceAux (p :: ps) rep (ps ++ tail).length
            (List.drop ((p :: ps).length - 1) (ps ++ tail)) := by
    simp [strReplaceAux, hpe, hlw]
  calc strReplace (p :: ps) rep ((p :: ps) ++ tail)
      = strReplaceAux (p :: ps) rep ((ps ++ tail).length + 1) (p :: (ps ++ tail)) := rfl
    _ = rep ++ strReplaceAux (p :: ps) rep (ps ++ tail).length
          (List.drop ((p :: ps).length - 1) (ps ++ tail)) := step
    _ = rep ++ strReplaceAux (p :: ps) rep (ps ++ tail).length tail := by rw [hdrop]
    _ = rep ++ strReplace (p :: ps) rep tail :=
        congrArg _ (strReplaceAux_fuel _ _ _ _ _ (by simp) le_rfl)

theorem strReplaceAux_of_hasSub_false (pat rep : List Char) (fuel : Nat)
    (l : List Char) (h : hasSub l pat = false) :
    strReplaceAux pat rep fuel l = l := by
  induction l generalizing fuel with
  | nil => cases fuel <;> rfl
  | cons c rest ih =>
    have h' : leadsWith pat (c :: rest) = false ∧ hasSub rest pat = false := by
      simpa [hasSub] using h
    cases fuel with
    | zero => rfl
    | succ f =>
      by_cases hpe : pat.isEmpty
      · exfalso
        have : pat = [] := by simpa [List.isEmpty_iff] using hpe
        rw [this] at h'
        simp [leadsWith] at h'
      · simp only [strReplaceAux, if_neg hpe, h'.1, Bool.false_eq_true, if_false]
        exact congrArg _ (ih f h'.2)

theorem strReplace_of_hasSub_false (pat rep l : List Char) (h : hasSub l pat = false) :
    strReplace pat rep l = l :=
  strReplaceAux_of_hasSub_false pat rep l.length l h

theorem hasSub_false_of_head_notMem (p : Char) (ps l : List Char) (h : p ∉ l) :
    hasSub l (p :: ps) = false := by
  induction l with
  | nil => rfl
  | cons c rest ih =>
    have hpc : p ≠ c := fun hh => h (hh ▸ List.mem_cons_self c rest)
    have hr : p ∉ rest := fun hh => h (List.mem_cons_of_mem c hh)
    simp [hasSub, leadsWith, hpc, ih hr]

theorem strReplace_single_append (a : Char) (rep P L : List Char) (h : a ∉ P) :
    strReplace [a] rep (P ++ L) = P ++ strReplace [a] rep L := by
  induction P with
  | nil => simp
  | cons c P' ih =>
    have hac : a ≠ c := fun hh => h (hh ▸ List.mem_cons_self c P')
    have hP' : a ∉ P' := fun hh => h (List.mem_cons_of_mem c hh)
    have hlw : leadsWith [a] (c :: (P' ++ L)) = false := by
      simp [leadsWith, hac]
    calc strReplace [a] rep ((c :: P') ++ L)
        = strReplace [a] rep (c :: (P' ++ L)) := by simp
      _ = c :: strReplace [a] rep (P' ++ L) :=
          strReplace_cons_of_not_leadsWith _ _ _ _ hlw
      _ = c :: (P' ++ strReplace [a] rep L) := by rw [ih hP']
      _ = (c :: P') ++ strReplace [a] rep L := rfl

theorem strReplace_single_cons_match (a : Char) (rep L : List Char) :
    strReplace [a] rep (a :: L) = rep ++ strReplace [a] rep L :=
  strReplace_head_match a [] rep L

theorem strReplace_single_of_notMem (a : Char) (rep L : List Char) (h : a ∉ L) :
    strReplace [a] rep L = L :=
  strReplace_of_hasSub_false _ _ _ (hasSub_false_of_head_notMem a [] L h)

/-! Helper lemmas about the traversal. -/

theorem leave_Subscript_pass (original v : CST) (sl : Elems)
    (h1 : v ≠ .name "Concatenate") (h2 : v ≠ .name "Callable") :
    leave_Subscript original (.subscript v sl) = .ok original := by
  simp [leave_Subscript, h1, h2]

mutual

theorem transform_id (t : CST) (h : hasTargetSubscript t = false) :
    transform t = .ok t := by
  cases t with
  | name v => rfl
  | simpleString v => rfl
  | ellipsis paren => rfl
  | tuple paren es =>
    have hh : hasTargetSubscriptElems es = false := by
      simpa [hasTargetSubscript] using h
    simp [transform, transformElems_id es hh]
  | list es =>
    have hh : hasTargetSubscriptElems es = false := by
      simpa [hasTargetSubscript] using h
    simp [transform, transformElems_id es hh]
  | binaryOperationAdd w1 w2 l r =>
    simp only [hasTargetSubscript, Bool.or_eq_false_iff] at h
    simp [transform, transform_id l h.1, transform_id r h.2]
  | subscript v sl =>
    simp only [hasTargetSubscript, Bool.or_eq_false_iff, beq_eq_false_iff_ne] at h
    obtain ⟨⟨⟨hc, hcc⟩, hv⟩, hsl⟩ := h
    simp [transform, transform_id v hv, transformElems_id sl hsl,
      leave_Subscript_pass _ _ _ hcc hc]

theorem transformElems_id (es : Elems) (h : hasTargetSubscriptElems es = false) :
    transformElems es = .ok es := by
  cases es with
  | nil => rfl
  | cons c cm rest =>
    simp only [hasTargetSubscriptElems, Bool.or_eq_false_iff] at h
    simp [transformElems, transform_id c h.1, transformElems_id rest h.2]

end

mutual

theorem transform_concat_err (t : CST) (h : containsConcatenate t = true) :
    ∃ e, transform t = .error e := by
  cases t with
  | name v => simp [containsConcatenate] at h
  | simpleString v => simp [containsConcatenate] at h
  | ellipsis paren => simp [containsConcatenate] at h
  | tuple paren es =>
    have hh : containsConcatenateElems es = true := by
      simpa [containsConcatenate] using h
    obtain ⟨e, he⟩ := transformElems_concat_err es hh
    exact ⟨e, by simp [transform, he]⟩
  | list es =>
    have hh : containsConcatenateElems es = true := by
      simpa [containsConcatenate] using h
    obtain ⟨e, he⟩ := transformElems_concat_err es hh
    exact ⟨e, by simp [transform, he]⟩
  | binaryOperationAdd w1 w2 l r =>
    simp only [containsConcatenate, Bool.or_eq_true] at h
    rcases h with h | h
    · obtain ⟨e, he⟩ := transform_concat_err l h
      exact ⟨e, by simp [transform, he]⟩
    · cases htl : transform l with
      | error e => exact ⟨e, by simp [transform, htl]⟩
      | ok lU =>
        obtain ⟨e, he⟩ := transform_concat_err r h
        exact ⟨e, by simp [transform, htl, he]⟩
  | subscript v sl =>
    simp only [containsConcatenate, Bool.or_eq_true, beq_iff_eq] at h
    cases htv : transform v with
    | error e => exact ⟨e, by simp [transform, htv]⟩
    | ok vU =>
      cases htsl : transformElems sl with
      | error e => exact ⟨e, by simp [transform, htv, htsl]⟩
      | ok slU =>
        rcases h with (h | h) | h
        · subst h
          have hvU : vU = .name "Concatenate" := by
            have : transform (CST.name "Concatenate") = .ok (.name "Concatenate") := rfl
            rw [this] at htv
            exact (Except.ok.injEq _ _).mp htv.symm
          subst hvU
          exact ⟨.concatenateNotImplemented, by simp [transform, htv, htsl, leave_Subscript]⟩
        · obtain ⟨e, he⟩ := transform_concat_err v h
          rw [he] at htv
          exact absurd htv (by simp)
        · obtain ⟨e, he⟩ := transformElems_concat_err sl h
          rw [he] at htsl
          exact absurd htsl (by simp)

theorem transformElems_concat_err (es : Elems) (h : containsConcatenateElems es = true) :
    ∃ e, transformElems es = .error e := by
  cases es with
  | nil => simp [containsConcatenateElems] at h
  | cons c cm rest =>
    simp only [containsConcatenateElems, Bool.or_eq_true] at h
    rcases h with h | h
    · obtain ⟨e, he⟩ := transform_concat_err c h
      exact ⟨e, by simp [transformElems, he]⟩
    · cases htc : transform c with
      | error e => exact ⟨e, by simp [transformElems, htc]⟩
      | ok cU =>
        obtain ⟨e, he⟩ := transformElems_concat_err rest h
        exact ⟨e, by simp [transformElems, htc, he]⟩

end

mutual

theorem hasTargetSubscript_eq (t : CST) :
    hasTargetSubscript t = (containsCallable t || containsConcatenate t) := by
  cases t with
  | name v => rfl
  | simpleString v => rfl
  | ellipsis paren => rfl
  | tuple paren es =>
    simp only [hasTargetSubscript, containsCallable, containsConcatenate]
    exact hasTargetSubscriptElems_eq es
  | list es =>
    simp only [hasTargetSubscript, containsCallable, containsConcatenate]
    exact hasTargetSubscriptElems_eq es
  | binaryOperationAdd w1 w2 l r =>
    simp only [hasTargetSubscript, containsCallable, containsConcatenate]
    rw [hasTargetSubscript_eq l, hasTargetSubscript_eq r]
    cases h1 : containsCallable l <;> cases h2 : containsConcatenate l <;>
      cases h3 : containsCallable r <;> cases h4 : containsConcatenate r <;> rfl
  | subscript v sl =>
    simp only [hasTargetSubscript, containsCallable, containsConcatenate]
    rw [hasTargetSubscript_eq v, hasTargetSubscriptElems_eq sl]
    cases h1 : (v == CST.name "Callable") <;> cases h2 : (v == CST.name "Concatenate") <;>
      cases h3 : containsCallable v <;> cases h4 : containsConcatenate v <;>
      cases h5 : containsCallableElems sl <;> cases h6 : containsConcatenateElems sl <;> rfl

theorem hasTargetSubscriptElems_eq (es : Elems) :
    hasTargetSubscriptElems es = (containsCallableElems es || containsConcatenateElems es) := by
  cases es with
  | nil => rfl
  | cons c cm rest =>
    simp only [hasTargetSubscriptElems, containsCallableElems, containsConcatenateElems]
    rw [hasTargetSubscript_eq c, hasTargetSubscriptElems_eq rest]
    cases h1 : containsCallable c <;> cases h2 : containsConcatenate c <;>
      cases h3 : containsCallableElems rest <;> cases h4 : containsConcatenateElems rest <;> rfl

end

mutual

theorem transform_concat_exact (t : CST)
    (hc : containsConcatenate t = true) (hnc : containsCallable t = false) :
    transform t = .error .concatenateNotImplemented := by
  cases t with
  | name v => simp [containsConcatenate] at hc
  | simpleString v => simp [containsConcatenate] at hc
  | ellipsis paren => simp [containsConcatenate] at hc
  | tuple paren es =>
    have hce : containsConcatenateElems es = true := by
      simpa [containsConcatenate] using hc
    have hnce : containsCallableElems es = false := by
      simpa [containsCallable] using hnc
    simp [transform, transformElems_concat_exact es hce hnce]
  | list es =>
    have hce : containsConcatenateElems es = true := by
      simpa [containsConcatenate] using hc
    have hnce : containsCallableElems es = false := by
      simpa [containsCallable] using hnc
    simp [transform, transformElems_concat_exact es hce hnce]
  | binaryOperationAdd w1 w2 l r =>
    simp only [containsConcatenate, Bool.or_eq_true] at hc
    simp only [containsCallable, Bool.or_eq_false_iff] at hnc
    by_cases hcl : containsConcatenate l = true
    · simp [transform, transform_concat_exact l hcl hnc.1]
    · have hcl' : containsConcatenate l = false := by simpa using hcl
      have hcr : containsConcatenate r = true := by
        rcases hc with h | h
        · exact absurd h hcl
        · exact h
      have hlok : transform l = .ok l := transform_id l (by
        rw [hasTargetSubscript_eq]; simp [hnc.1, hcl'])
      simp [transform, hlok, transform_concat_exact r hcr hnc.2]
  | subscript v sl =>
    simp only [containsConcatenate, Bool.or_eq_true, beq_iff_eq] at hc
    simp only [containsCallable, Bool.or_eq_false_iff, beq_eq_false_iff_ne] at hnc
    obtain ⟨⟨hvne, hncv⟩, hnces⟩ := hnc
    by_cases hcv : containsConcatenate v = true
    · simp [transform, transform_concat_exact v hcv hncv]
    · have hcv' : containsConcatenate v = false := by simpa using hcv
      have hvok : transform v = .ok v := transform_id v (by
        rw [hasTargetSubscript_eq]; simp [hncv, hcv'])
      by_cases hces : containsConcatenateElems sl = true
      · simp [transform, hvok, transformElems_concat_exact sl hces hnces]
      · have hces' : containsConcatenateElems sl = false := by simpa using hces
        have hv : v = .name "Concatenate" := by
          rcases hc with (h | h) | h
          · exact h
          · exact absurd h hcv
          · exact absurd h hces
        have hslok : transformElems sl = .ok sl := transformElems_id sl (by
          rw [hasTargetSubscriptElems_eq]; simp [hnces, hces'])
        subst hv
        simp [transform, hvok, hslok, leave_Subscript]

theorem transformElems_concat_exact (es : Elems)
    (hc : containsConcatenateElems es = true) (hnc : containsCallableElems es = false) :
    transformElems es = .error .concatenateNotImplemented := by
  cases es with
  | nil => simp [containsConcatenateElems] at hc
  | cons c cm rest =>
    simp only [containsConcatenateElems, Bool.or_eq_true] at hc
    simp only [containsCallableElems, Bool.or_eq_false_iff] at hnc
    by_cases hcc : containsConcatenate c = true
    · simp [transformElems, transform_concat_exact c hcc hnc.1]
    · have hcc' : containsConcatenate c = false := by simpa using hcc
      have hcr : containsConcatenateElems rest = true := by
        rcases hc with h | h
        · exact absurd h hcc
        · exact h
      have hcok : transform c = .ok c := transform_id c (by
        rw [hasTargetSubscript_eq]; simp [hnc.1, hcc'])
      simp [transformElems, hcok, transformElems_concat_exact rest hcr hnc.2]

end

theorem transformedLinesFrom_fst (st : RunState) (ls : List CST) :
    (transformedLinesFrom st ls).1 = transformedLines ls := by
  induction ls generalizing st with
  | nil => rfl
  | cons t rest ih =>
    simp only [transformedLinesFrom, transformedLines]
    cases pipelineFragment t with
    | ok s => simp [ih]
    | error e => simp [ih]

/-! Helper lemmas about the final text substitution. -/

theorem pyReplace_data (s pat rep : String) :
    (pyReplace s pat rep).data = strReplace pat.data rep.data s.data := rfl

theorem strReplace_plus_mid (P R : List Char) (hP : '+' ∉ P) (hR : '+' ∉ R) :
    strReplace ['+'] ['-', '>'] (P ++ (' ' :: '+' :: ' ' :: R))
      = P ++ (' ' :: '-' :: '>' :: ' ' :: R) := by
  rw [strReplace_single_append _ _ _ _ hP]
  rw [strReplace_cons_of_not_leadsWith _ _ ' ' _ (by simp [leadsWith])]
  rw [strReplace_single_cons_match]
  rw [strReplace_cons_of_not_leadsWith _ _ ' ' _ (by simp [leadsWith])]
  rw [strReplace_single_of_notMem _ _ _ hR]
  simp

theorem strReplace_marker_wrapped (vd tl : List Char)
    (hv : '\'' ∉ vd) (htl : '\'' ∉ tl) :
    strReplace ['\'', '*', '*', '\'', ',', ' '] ['*', '*']
      ('(' :: '\'' :: '*' :: '*' :: '\'' :: ',' :: ' ' :: (vd ++ tl))
      = '(' :: '*' :: '*' :: (vd ++ tl) := by
  have hshape : ('\'' :: '*' :: '*' :: '\'' :: ',' :: ' ' :: (vd ++ tl))
      = ('\'' :: ['*', '*', '\'', ',', ' ']) ++ (vd ++ tl) := rfl
  rw [strReplace_cons_of_not_leadsWith _ _ '(' _ (by simp [leadsWith])]
  rw [hshape, strReplace_head_match]
  rw [strReplace_of_hasSub_false _ _ _
    (hasSub_false_of_head_notMem _ _ _ (by simp [hv, htl]))]
  rfl

theorem transformed_line_id (s : String)
    (h1 : hasSub s.data ("'**', ").data = false) (h2 : '+' ∉ s.data) :
    transformed_line s = s := by
  have hin : pyReplace s "'**', " "**" = s :=
    String.ext (strReplace_of_hasSub_false _ _ _ h1)
  show pyReplace (pyReplace s "'**', " "**") "+" "->" = s
  rw [hin]
  exact String.ext (strReplace_single_of_notMem _ _ _ h2)

theorem transformed_line_encoding (T ret : CST)
    (hT1 : '\'' ∉ (code T).data) (hT2 : '+' ∉ (code T).data)
    (hr1 : '\'' ∉ (code ret).data) (hr2 : '+' ∉ (code ret).data) :
    transformed_line (code (.binaryOperationAdd " " " " T ret))
      = code T ++ " -> " ++ code ret := by
  have hdata : (code (.binaryOperationAdd " " " " T ret)).data
      = (code T).data ++ (' ' :: '+' :: ' ' :: (code ret).data) := by
    simp [code, String.data_append,
      show (" " : String).data = [' '] from rfl,
      show ("+" : String).data = ['+'] from rfl]
  have hmem : '\'' ∉ (code (.binaryOperationAdd " " " " T ret)).data := by
    rw [hdata]; simp [hT1, hr1]
  have hin : pyReplace (code (.binaryOperationAdd " " " " T ret)) "'**', " "**"
      = code (.binaryOperationAdd " " " " T ret) :=
    String.ext (strReplace_of_hasSub_false _ _ _
      (hasSub_false_of_head_notMem '\'' ['*', '*', '\'', ',', ' '] _ hmem))
  show pyReplace (pyReplace _ "'**', " "**") "+" "->" = _
  rw [hin]
  apply String.ext
  rw [pyReplace_data, hdata]
  show strReplace ['+'] ['-', '>'] _ = _
  rw [strReplace_plus_mid _ _ hT2 hr2]
  simp [String.data_append]

theorem transformed_line_marker_encoding (v : String) (ret : CST)
    (hv1 : '\'' ∉ v.data) (hv2 : '+' ∉ v.data)
    (hr1 : '\'' ∉ (code ret).data) (hr2 : '+' ∉ (code ret).data) :
    transformed_line (code (.binaryOperationAdd " " " "
        (.tuple true (.cons (.simpleString "'**'") none (.cons (.name v) none .nil))) ret))
      = "(**" ++ v ++ ") -> " ++ code ret := by
  have hdata : (code (.binaryOperationAdd " " " "
        (.tuple true (.cons (.simpleString "'**'") none (.cons (.name v) none .nil))) ret)).data
      = '(' :: '\'' :: '*' :: '*' :: '\'' :: ',' :: ' '
          :: (v.data ++ (')' :: ' ' :: '+' :: ' ' :: (code ret).data)) := by
    simp [code, tupleInner, elemsCode, String.data_append,
      show (" " : String).data = [' '] from rfl,
      show ("+" : String).data = ['+'] from rfl,
      show ("(" : String).data = ['('] from rfl,
      show (")" : String).data = [')'] from rfl,
      show ("'**'" : String).data = ['\'', '*', '*', '\''] from rfl,
      show (", " : String).data = [',', ' '] from rfl]
  apply String.ext
  show (pyReplace (pyReplace _ "'**', " "**") "+" "->").data = _
  rw [pyReplace_data, pyReplace_data, hdata]
  rw [show ("'**', " : String).data = ['\'', '*', '*', '\'', ',', ' '] from rfl]
  rw [show ("**" : String).data = ['*', '*'] from rfl]
  rw [strReplace_marker_wrapped _ _ hv1 (by simp [hr1])]
  rw [show ('(' :: '*' :: '*' :: (v.data ++ (')' :: ' ' :: '+' :: ' ' :: (code ret).data)))
      = (('(' :: '*' :: '*' :: v.data) ++ [')']) ++ (' ' :: '+' :: ' ' :: (code ret).data) by simp]
  rw [show ("+" : String).data = ['+'] from rfl]
  rw [show ("->" : String).data = ['-', '>'] from rfl]
  rw [strReplace_plus_mid (('(' :: '*' :: '*' :: v.data) ++ [')']) _
    (by simp [hv2]) hr2]
  simp [String.data_append,
    show ("(**" : String).data = ['(', '*', '*'] from rfl,
    show (") -> " : String).data = [')', ' ', '-', '>', ' '] from rfl]

/-! Claim theorems. -/

/-- C1, counterexample: the claimed invariant fails as stated.  For the
encoded match `Callable[..., a + b]` (parameters of Ellipsis shape, return
type containing a genuine addition), serializing the EncodedMatch and
applying the two fixed replacements yields `(...) -> a -> b`, not the
intended arrow syntax `(...) -> a + b`: the global `+` substitution also
rewrites the `+` inside the return type. -/
theorem C1_counterexample :
    callable_to_new_arrow_as_string (.ellipsis false)
        (.binaryOperationAdd " " " " (.name "a") (.name "b"))
      = .ok (.binaryOperationAdd " " " " (.ellipsis true)
          (.binaryOperationAdd " " " " (.name "a") (.name "b")))
    ∧ transformed_line (code (.binaryOperationAdd " " " " (.ellipsis true)
        (.binaryOperationAdd " " " " (.name "a") (.name "b")))) = "(...) -> a -> b"
    ∧ intendedArrowText (.ellipsis false)
        (.binaryOperationAdd " " " " (.name "a") (.name "b")) = "(...) -> a + b"
    ∧ ("(...) -> a -> b" : String) ≠ "(...) -> a + b" :=
  ⟨rfl, rfl, rfl, by decide⟩

/-- C1, amended: for every encoded match, serializing the EncodedMatch and
applying the two fixed replacements yields the intended arrow syntax,
provided the serialized parameter text and the serialized return type
contain no quote character and no plus character (so neither the marker
substring nor the placeholder operator can occur inside them; the
counterexample shows the restriction is necessary). -/
theorem C1_amended (parameters return_type enc : CST)
    (henc : callable_to_new_arrow_as_string parameters return_type = .ok enc)
    (hp : cleanChars (shapeParamsText parameters))
    (hr : cleanChars (code return_type)) :
    transformed_line (code enc) = intendedArrowText parameters return_type := by
  obtain ⟨hp1, hp2⟩ := hp
  obtain ⟨hr1, hr2⟩ := hr
  cases parameters with
  | name v =>
    have he : enc = .binaryOperationAdd " " " "
        (.tuple true (.cons (.simpleString "'**'") none (.cons (.name v) none .nil)))
        return_type := by
      simp [callable_to_new_arrow_as_string] at henc
      exact henc.symm
    subst he
    exact transformed_line_marker_encoding v return_type hp1 hp2 hr1 hr2
  | tuple paren es =>
    have he : enc = .binaryOperationAdd " " " " (.tuple paren es) return_type := by
      simp [callable_to_new_arrow_as_string] at henc
      exact henc.symm
    subst he
    exact transformed_line_encoding _ _ hp1 hp2 hr1 hr2
  | ellipsis paren =>
    have he : enc = .binaryOperationAdd " " " " (.ellipsis true) return_type := by
      simp [callable_to_new_arrow_as_string] at henc
      exact henc.symm
    subst he
    rw [transformed_line_encoding (.ellipsis true) return_type
      (by decide) (by decide) hr1 hr2]
    apply String.ext
    simp [code, intendedArrowText, String.data_append]
  | list es =>
    have he : enc = .binaryOperationAdd " " " " (.tuple true es) return_type := by
      simp [callable_to_new_arrow_as_string] at henc
      exact henc.symm
    subst he
    exact transformed_line_encoding _ _ hp1 hp2 hr1 hr2
  | simpleString v => exact absurd henc (by simp [callable_to_new_arrow_as_string])
  | binaryOperationAdd w1 w2 l r =>
    exact absurd henc (by simp [callable_to_new_arrow_as_string])
  | subscript v sl => exact absurd henc (by simp [callable_to_new_arrow_as_string])

/-- C1, witness for the amended theorem at the encoded match of
`Callable[P, int]`. -/
theorem C1_amended_witness :
    callable_to_new_arrow_as_string (.name "P") (.name "int")
      = .ok (.binaryOperationAdd " " " "
          (.tuple true (.cons (.simpleString "'**'") none (.cons (.name "P") none .nil)))
          (.name "int"))
    ∧ cleanChars (shapeParamsText (.name "P"))
    ∧ cleanChars (code (.name "int"))
    ∧ transformed_line (code (.binaryOperationAdd " " " "
        (.tuple true (.cons (.simpleString "'**'") none (.cons (.name "P") none .nil)))
        (.name "int"))) = intendedArrowText (.name "P") (.name "int") :=
  ⟨rfl, by decide, by decide,
    C1_amended (.name "P") (.name "int") _ rfl (by decide) (by decide)⟩

/-- C2 (code_bug): the fragment `Optional[Callable[[int], str]]` is processed
without any error, and the emitted output line is the input unchanged: it
still contains the `Callable[...]` subscript, passed through unrewritten and
silently.  The inner Callable is rewritten during traversal, but
`leave_Subscript` on the enclosing non-matching subscript returns
`original_node`, discarding the child rewrite. -/
theorem C2_nested_passthrough :
    code optionalCallableFragment = "Optional[Callable[[int], str]]"
    ∧ pipelineFragment optionalCallableFragment = .ok "Optional[Callable[[int], str]]"
    ∧ hasSub ("Optional[Callable[[int], str]]").data ("Callable[").data = true :=
  ⟨rfl, rfl, rfl⟩

/-- C3, counterexample: transforming `Callable[[int], Callable[[str], bool]]`
produces `(int,) -> (str,) -> bool`, not the claimed `(int) -> (str) -> bool`:
a singleton parameter list becomes a one-element tuple, which libcst
serializes with a trailing comma. -/
theorem C3_counterexample :
    code nestedCallableFragment = "Callable[[int], Callable[[str], bool]]"
    ∧ pipelineFragment nestedCallableFragment = .ok "(int,) -> (str,) -> bool"
    ∧ ("(int,) -> (str,) -> bool" : String) ≠ "(int) -> (str) -> bool" :=
  ⟨rfl, rfl, by decide⟩

/-- C3, amended: transforming `Callable[[int], Callable[[str], bool]]`
produces exactly `(int,) -> (str,) -> bool` (singleton parameter tuples
carry a trailing comma), and the traversal is post-order: the inner Callable
is rewritten first, and the outer encoding's right operand is the
already-rewritten inner node. -/
theorem C3_amended :
    code nestedCallableFragment = "Callable[[int], Callable[[str], bool]]"
    ∧ transform innerCallableFragment
        = .ok (.binaryOperationAdd " " " "
            (.tuple true (.cons (.name "str") none .nil)) (.name "bool"))
    ∧ transform nestedCallableFragment
        = .ok (.binaryOperationAdd " " " "
            (.tuple true (.cons (.name "int") none .nil))
            (.binaryOperationAdd " " " "
              (.tuple true (.cons (.name "str") none .nil)) (.name "bool")))
    ∧ pipelineFragment nestedCallableFragment = .ok "(int,) -> (str,) -> bool" :=
  ⟨rfl, rfl, rfl, rfl⟩

/-- C4, counterexample: the fragment `x + y` contains no Callable or
Concatenate subscript, yet the pipeline returns `x -> y`, not the input:
the final substitution replaces every `+` in the serialized text, matched or
not. -/
theorem C4_counterexample :
    hasTargetSubscript plusFragment = false
    ∧ code plusFragment = "x + y"
    ∧ pipelineFragment plusFragment = .ok "x -> y"
    ∧ ("x -> y" : String) ≠ "x + y" :=
  ⟨rfl, rfl, rfl, by decide⟩

/-- C4, amended: for every fragment whose parse tree contains no Callable and
no Concatenate subscript, and whose text contains no occurrence of the
marker substring and no plus character, the full pipeline returns the
fragment's text byte-identical to the input. -/
theorem C4_amended (t : CST)
    (h1 : hasTargetSubscript t = false)
    (h2 : hasSub (code t).data ("'**', ").data = false)
    (h3 : '+' ∉ (code t).data) :
    pipelineFragment t = .ok (code t) := by
  have ht := transform_id t h1
  simp [pipelineFragment, ht, transformed_line_id _ h2 h3]

/-- C4, witness for the amended theorem at the fragment `x`. -/
theorem C4_amended_witness :
    hasTargetSubscript (.name "x") = false
    ∧ hasSub (code (.name "x")).data ("'**', ").data = false
    ∧ '+' ∉ (code (.name "x")).data
    ∧ pipelineFragment (.name "x") = .ok (code (.name "x")) :=
  ⟨rfl, rfl, by decide, C4_amended (.name "x") rfl rfl (by decide)⟩

/-- C5, counterexample: a Callable subscript with three slice elements does
not raise; the rewriter proceeds, encoding the first two elements and
silently dropping the third. -/
theorem C5_counterexample :
    code threeSliceCallableFragment = "Callable[P, int, str]"
    ∧ elemsLength (.cons (.name "P") (some ", ")
        (.cons (.name "int") (some ", ") (.cons (.name "str") none .nil))) = 3
    ∧ pipelineFragment threeSliceCallableFragment = .ok "(**P) -> int" :=
  ⟨rfl, rfl, rfl⟩

/-- C5, amended: for a subscript whose value is `Callable`, fewer than two
slice elements raise the malformed-input error (the IndexError from
`slice[1]`), while more than two slice elements are processed without error
using only the first two. -/
theorem C5_amended (original : CST) (sl : Elems) :
    (elemsLength sl < 2 →
      leave_Subscript original (.subscript (.name "Callable") sl) = .error .sliceIndexError)
    ∧ (∀ p pc r rc rest,
        leave_Subscript original (.subscript (.name "Callable") (.cons p pc (.cons r rc rest)))
          = callable_to_new_arrow_as_string p r) := by
  constructor
  · intro h
    cases sl with
    | nil => rfl
    | cons p pc rest =>
      cases rest with
      | nil => rfl
      | cons r rc rest2 =>
        exfalso
        simp only [elemsLength] at h
        omega
  · intro p pc r rc rest
    rfl

/-- C5, witness for the amended theorem: a one-element slice errors, and a
three-element slice is encoded from its first two elements. -/
theorem C5_amended_witness :
    (elemsLength (.cons (.name "int") none .nil) < 2
      ∧ leave_Subscript (.name "orig")
          (.subscript (.name "Callable") (.cons (.name "int") none .nil))
        = .error .sliceIndexError)
    ∧ leave_Subscript (.name "orig")
        (.subscript (.name "Callable")
          (.cons (.name "P") none (.cons (.name "int") none (.cons (.name "str") none .nil))))
      = callable_to_new_arrow_as_string (.name "P") (.name "int") :=
  ⟨⟨by decide,
    (C5_amended (.name "orig") (.cons (.name "int") none .nil)).1 (by decide)⟩,
    (C5_amended (.name "orig")
      (.cons (.name "P") none (.cons (.name "int") none (.cons (.name "str") none .nil)))).2
      (.name "P") none (.name "int") none (.cons (.name "str") none .nil)⟩

/-- C6, counterexample: the fragment `X[Callable[int], Concatenate[int, P]]`
contains a Concatenate subscript, yet the traversal raises the slice
IndexError of the malformed `Callable[int]` (visited earlier in post-order),
not the Concatenate error. -/
theorem C6_counterexample :
    code mixedConcatenateFragment = "X[Callable[int], Concatenate[int, P]]"
    ∧ containsConcatenate mixedConcatenateFragment = true
    ∧ transform mixedConcatenateFragment = .error .sliceIndexError
    ∧ Err.sliceIndexError ≠ Err.concatenateNotImplemented :=
  ⟨rfl, rfl, rfl, by decide⟩

/-- C6, amended: every fragment containing a Concatenate subscript raises an
error and contributes no line to the output list; and whenever the fragment
contains no Callable subscript — the only other error source, so nothing
visited earlier in traversal can preempt — the error raised is exactly the
Concatenate NotImplementedError. -/
theorem C6_amended (t : CST) (h : containsConcatenate t = true) :
    (∃ e, transform t = .error e)
    ∧ (∀ rest, transformedLines (t :: rest) = transformedLines rest)
    ∧ (containsCallable t = false →
        transform t = .error .concatenateNotImplemented) := by
  obtain ⟨e, he⟩ := transform_concat_err t h
  refine ⟨⟨e, he⟩, fun rest => ?_, fun hnc => transform_concat_exact t h hnc⟩
  simp [transformedLines, pipelineFragment, he]

/-- C6, witness for the amended theorem at the fragment `Concatenate[int, P]`,
which contains no Callable subscript and therefore raises exactly the
Concatenate NotImplementedError. -/
theorem C6_amended_witness :
    containsConcatenate concatenateFragment = true
    ∧ containsCallable concatenateFragment = false
    ∧ (∃ e, transform concatenateFragment = .error e)
    ∧ transformedLines [concatenateFragment] = []
    ∧ transform concatenateFragment = .error .concatenateNotImplemented :=
  ⟨rfl, rfl, (C6_amended concatenateFragment rfl).1,
    ((C6_amended concatenateFragment rfl).2.1 []).trans rfl,
    (C6_amended concatenateFragment rfl).2.2 rfl⟩

/-- C7 (confirmed): transforming `Callable[P, int]` wraps the bare identifier
in a two-element tuple whose first element is the quoted marker `'**'`, and
the final substitution collapses it, producing exactly `(**P) -> int`. -/
theorem C7_confirmed :
    code paramSpecFragment = "Callable[P, int]"
    ∧ transform paramSpecFragment
        = .ok (.binaryOperationAdd " " " "
            (.tuple true (.cons (.simpleString "'**'") none (.cons (.name "P") none .nil)))
            (.name "int"))
    ∧ pipelineFragment paramSpecFragment = .ok "(**P) -> int" :=
  ⟨rfl, rfl, rfl⟩

/-- C8 (confirmed): for every parameter element sequence and return type, a
Callable whose parameters are the List shape produces exactly the same
pipeline result as the Callable whose parameters are the Tuple shape with
the same elements in the same order. -/
theorem C8_confirmed (es : Elems) (ret : CST) :
    pipelineFragment (.subscript (.name "Callable")
        (.cons (.list es) (some ", ") (.cons ret none .nil)))
      = pipelineFragment (.subscript (.name "Callable")
        (.cons (.tuple true es) (some ", ") (.cons ret none .nil))) := by
  cases hes : transformElems es with
  | error e => simp [pipelineFragment, transform, transformElems, hes]
  | ok esU =>
    cases hret : transform ret with
    | error e => simp [pipelineFragment, transform, transformElems, hes, hret]
    | ok retU =>
      simp [pipelineFragment, transform, transformElems, hes, hret,
        leave_Subscript, callable_to_new_arrow_as_string]

/-- C9 (confirmed): the output list is the in-order list of the per-fragment
results of the non-erroring fragments, and its length is the number of
fragments processed without error. -/
theorem C9_confirmed (ls : List CST) :
    transformedLines ls = ls.filterMap (fun t => (pipelineFragment t).toOption)
    ∧ (transformedLines ls).length
        = (ls.filter (fun t => ((pipelineFragment t).toOption).isSome)).length := by
  induction ls with
  | nil => exact ⟨rfl, rfl⟩
  | cons t rest ih =>
    obtain ⟨ih1, ih2⟩ := ih
    cases h : pipelineFragment t with
    | ok s =>
      simp only [Except.toOption] at ih1 ih2 ⊢
      constructor
      · simp [transformedLines, h, List.filterMap_cons, ih1]
      · simp [transformedLines, h, List.filter_cons, ih2]
    | error e =>
      simp only [Except.toOption] at ih1 ih2 ⊢
      constructor
      · simp [transformedLines, h, List.filterMap_cons, ih1]
      · simp [transformedLines, h, List.filter_cons, ih2]

/-- C10 (confirmed): the per-fragment pipeline is deterministic and the
process-wide state (the memoized empty-module slot and the `_current_line`
global) never influences results: the output lines of a run are the same for
any two initial states and coincide with the stateless per-fragment
pipeline, and `code_for_node` renders a node the same way under any cache
state. -/
theorem C10_confirmed (st1 st2 : RunState) (ls : List CST) (n : CST) :
    (transformedLinesFrom st1 ls).1 = (transformedLinesFrom st2 ls).1
    ∧ (transformedLinesFrom st1 ls).1 = transformedLines ls
    ∧ (code_for_node st1 n).1 = code n
    ∧ (code_for_node st2 n).1 = code n := by
  refine ⟨?_, transformedLinesFrom_fst st1 ls, rfl, rfl⟩
  rw [transformedLinesFrom_fst st1 ls, transformedLinesFrom_fst st2 ls]

end TransformOldToNew
